import Mathlib

/-!
Shallow embedding of the secure-password-utilities library.

The randomness source (the external `getRandomBytes` collaborator) is modelled
as an infinite stream `s : ℕ → ℕ` of byte values together with a cursor
`k : ℕ`: reading one byte yields `s k` and advances the cursor to `k + 1`.
Where a statement needs the values to actually be bytes it carries the
hypothesis `∀ i, s i < 256`.

The rejection-sampling loops of the library are not structurally terminating
(an adversarial stream can be rejected forever), so every loop takes a `fuel`
argument and returns `Option`: `none` means the fuel ran out, `some` carries
the result together with the new cursor.  Thrown JavaScript errors are
modelled with `Except Err`; each `Err` constructor corresponds to one
distinct error message of the source.

Numeric arguments are modelled as `ℕ`.  The JavaScript sources also reject
arguments of the wrong runtime type and negative arguments; those rejection
branches concern values outside the `ℕ` domain of the embedding and are kept
(where they appear) as vacuous `< 0` tests.
-/

namespace SPU

/-- Error kinds, one per distinct error message thrown by the sources. -/
inductive Err where
  /-- random.ts getRandomNumberLessThan: number must be at least two and at most 65536. -/
  | invalidNumber
  /-- random.ts getRandomNumbersInRange: length must be at least 1. -/
  | invalidRangeLength
  /-- random.ts getRandomNumbersInRange: end must be at most 65536. -/
  | invalidRangeEnd
  /-- random.ts getRandomNumbersInRange: range must contain at least two values. -/
  | invalidRangeSize
  /-- random.ts getRandomValues: range max must be at most 256. -/
  | invalidRangeMax
  /-- crypto.ts getRandomValueInRange: range must contain at least two values. -/
  | invalidByteRange
  /-- crypto.ts getRandomValueInRange: range until must be at most 256. -/
  | invalidByteMax
  /-- index.ts validatePasswordOptions: length option must be at least 1. -/
  | invalidPasswordLength
  /-- index.ts validatePasswordOption: option value must not be negative. -/
  | invalidOptionValue
  /-- index.ts validatePasswordOptions: requested characters exceed expected length. -/
  | requestedExceedsLength
  /-- index.ts validatePasswordOptions: requested less characters than expected length. -/
  | requestedLessThanLength
  /-- index.ts generateCharacters: charset must have length at least 2. -/
  | invalidCharsetArg
  deriving DecidableEq

/-- External collaborator `getRandomBytes(n)`: read `n` bytes from the stream
and advance the cursor. -/
def getRandomBytes (n : ℕ) (s : ℕ → ℕ) (k : ℕ) : List ℕ × ℕ :=
  ((List.range n).map fun i => s (k + i), k + n)

namespace Random

/-- random.ts: `const MAXIMUM_ONE_BYTE_VALUE = 256`. -/
def MAXIMUM_ONE_BYTE_VALUE : ℕ := 256

/-- random.ts: `const MAXIMUM_TWO_BYTE_VALUE = 65536`. -/
def MAXIMUM_TWO_BYTE_VALUE : ℕ := 65536

/-- random.ts `getOneByteRandomInteger`: one byte from the stream. -/
def getOneByteRandomInteger (s : ℕ → ℕ) (k : ℕ) : ℕ × ℕ := (s k, k + 1)

/-- random.ts `getTwoByteRandomInteger`: `(byte1 << 8) + byte2`, big endian. -/
def getTwoByteRandomInteger (s : ℕ → ℕ) (k : ℕ) : ℕ × ℕ :=
  (s k * 256 + s (k + 1), k + 2)

/-- random.ts `getRandomNumberLessThan`: the value `maxValue` computed from
`needsTwoBytes = number > 256`. -/
def maxValueFor (number : ℕ) : ℕ :=
  if 256 < number then MAXIMUM_TWO_BYTE_VALUE else MAXIMUM_ONE_BYTE_VALUE

/-- random.ts `getRandomNumberLessThan`: the acceptance cutoff
`randomNumberMax = number * Math.floor(maxValue / number)`. -/
def randomNumberMaxFor (number : ℕ) : ℕ :=
  number * (maxValueFor number / number)

/-- random.ts `getRandomNumberLessThan`: the `while (true)` rejection loop,
with fuel.  Returns the accepted value `randomNumber % number` and the new
cursor, or `none` when the fuel is exhausted. -/
def lessThanLoop (number randomNumberMax : ℕ) (needsTwoBytes : Bool)
    (s : ℕ → ℕ) : ℕ → ℕ → Option (ℕ × ℕ)
  | 0, _ => none
  | fuel + 1, k =>
    let drawn := if needsTwoBytes then getTwoByteRandomInteger s k
                 else getOneByteRandomInteger s k
    if drawn.1 < randomNumberMax then some (drawn.1 % number, drawn.2)
    else lessThanLoop number randomNumberMax needsTwoBytes s fuel drawn.2

/-- random.ts `getRandomNumberLessThan(number)`. -/
def getRandomNumberLessThan (number : ℕ) (s : ℕ → ℕ) (fuel k : ℕ) :
    Except Err (Option (ℕ × ℕ)) :=
  if number < 2 ∨ MAXIMUM_TWO_BYTE_VALUE < number then .error .invalidNumber
  else .ok (lessThanLoop number (randomNumberMaxFor number)
    (decide (256 < number)) s fuel k)

/-- random.ts `getRandomNumbersInRange`: the `for` loop filling `values[i] =
start + getRandomNumberLessThan(end - start)`, one entry per iteration. -/
def rangeLoop (start number : ℕ) (s : ℕ → ℕ) (fuel : ℕ) :
    ℕ → ℕ → Except Err (Option (List ℕ × ℕ))
  | 0, k => .ok (some ([], k))
  | i + 1, k =>
    match getRandomNumberLessThan number s fuel k with
    | .error e => .error e
    | .ok none => .ok none
    | .ok (some (v, k2)) =>
      match rangeLoop start number s fuel i k2 with
      | .error e => .error e
      | .ok none => .ok none
      | .ok (some (vs, k3)) => .ok (some ((start + v) :: vs, k3))

/-- random.ts `getRandomNumbersInRange(length, start, end)`.  The source also
rejects non-number and negative `length`, `start`, `end`; those inputs lie
outside the `ℕ` domain of the embedding. -/
def getRandomNumbersInRange (length start endv : ℕ) (s : ℕ → ℕ) (fuel k : ℕ) :
    Except Err (Option (List ℕ × ℕ)) :=
  if length < 1 then .error .invalidRangeLength
  else if MAXIMUM_TWO_BYTE_VALUE < endv then .error .invalidRangeEnd
  else if endv - start < 2 then .error .invalidRangeSize
  else rangeLoop start (endv - start) s fuel length k

end Random

/-- Swap of the elements at positions `i` and `j`, exactly as the source loop
body performs it: `temp = result[i]; result[i] = result[j]; result[j] = temp`.
Out-of-range reads (which the verified paths never perform) default to a
space character, mirroring the undefined value JavaScript would produce. -/
def swapChars (l : List Char) (i j : ℕ) : List Char :=
  (l.set i (l.getD j ' ')).set j (l.getD i ' ')

/-- Swap loop shared verbatim by both `randomizeCharacters` versions: at
position `i` swap `result[i]` with `result[swapIndices[i]]`. -/
def applySwaps : List Char → List ℕ → ℕ → List Char
  | result, [], _ => result
  | result, j :: rest, i => applySwaps (swapChars result i j) rest (i + 1)

namespace Random

/-- random.ts `randomizeCharacters(characters)` (the version with the
`charactersLength < 2` early return). -/
def randomizeCharacters (characters : List Char) (s : ℕ → ℕ) (fuel k : ℕ) :
    Except Err (Option (List Char × ℕ)) :=
  if characters.length < 2 then .ok (some (characters, k))
  else
    match getRandomNumbersInRange characters.length 0 characters.length s fuel k with
    | .error e => .error e
    | .ok none => .ok none
    | .ok (some (swapIndices, k2)) => .ok (some (applySwaps characters swapIndices 0, k2))

/-- random.ts deprecated `getRandomValues(numValues, rangeMax)`.  The
`rangeMax = 256` branch returns raw bytes; otherwise each entry is a separate
`getRandomNumberLessThan(rangeMax)` draw (the loop body is identical to the
one of `getRandomNumbersInRange` with `start = 0`, so `rangeLoop 0` is
reused). -/
def getRandomValues (numValues rangeMax : ℕ) (s : ℕ → ℕ) (fuel k : ℕ) :
    Except Err (Option (List ℕ × ℕ)) :=
  if 256 < rangeMax then .error .invalidRangeMax
  else if numValues = 0 then .ok (some ([], k))
  else if rangeMax = 256 then .ok (some (getRandomBytes numValues s k))
  else rangeLoop 0 rangeMax s fuel numValues k

end Random

namespace Crypto

/-- crypto.ts `getRandomValueInRange`: the `while (true)` rejection loop over
single bytes, with fuel. -/
def valueInRangeLoop (start rangeSize byteRangeMax : ℕ) (s : ℕ → ℕ) :
    ℕ → ℕ → Option (ℕ × ℕ)
  | 0, _ => none
  | fuel + 1, k =>
    if s k < byteRangeMax then some (start + s k % rangeSize, k + 1)
    else valueInRangeLoop start rangeSize byteRangeMax s fuel (k + 1)

/-- crypto.ts `getRandomValueInRange(start, until)`.  The `start < 0` check of
the source is outside the `ℕ` domain. -/
def getRandomValueInRange (start untilv : ℕ) (s : ℕ → ℕ) (fuel k : ℕ) :
    Except Err (Option (ℕ × ℕ)) :=
  if untilv - start < 2 then .error .invalidByteRange
  else if 256 < untilv then .error .invalidByteMax
  else .ok (valueInRangeLoop start (untilv - start)
    ((untilv - start) * (256 / (untilv - start))) s fuel k)

/-- crypto.ts `getRandomValues`: the loop filling `bytes[i] =
getRandomValueInRange(0, rangeMax)`. -/
def bytesLoop (rangeMax : ℕ) (s : ℕ → ℕ) (fuel : ℕ) :
    ℕ → ℕ → Except Err (Option (List ℕ × ℕ))
  | 0, k => .ok (some ([], k))
  | i + 1, k =>
    match getRandomValueInRange 0 rangeMax s fuel k with
    | .error e => .error e
    | .ok none => .ok none
    | .ok (some (v, k2)) =>
      match bytesLoop rangeMax s fuel i k2 with
      | .error e => .error e
      | .ok none => .ok none
      | .ok (some (vs, k3)) => .ok (some (v :: vs, k3))

/-- crypto.ts `getRandomValues(numBytes, rangeMax)`. -/
def getRandomValues (numBytes rangeMax : ℕ) (s : ℕ → ℕ) (fuel k : ℕ) :
    Except Err (Option (List ℕ × ℕ)) :=
  if numBytes = 0 then .ok (some ([], k))
  else if rangeMax = 256 then .ok (some (getRandomBytes numBytes s k))
  else bytesLoop rangeMax s fuel numBytes k

end Crypto

/-- index.ts `DIGIT_CHARSET`. -/
def DIGIT_CHARSET : List Char := "0123456789".toList

/-- index.ts `LOWERCASE_CHARSET`. -/
def LOWERCASE_CHARSET : List Char := "abcdefghijklmnopqrstuvwxyz".toList

/-- index.ts `UPPERCASE_CHARSET`. -/
def UPPERCASE_CHARSET : List Char := "ABCDEFGHIJKLMNOPQRSTUVWXYZ".toList

/-- index.ts `SYMBOL_CHARSET`: the 31 OWASP password special characters except
space and backslash, in source order (exclamation mark through tilde), given
here by their ASCII codes to keep the punctuation out of string literals. -/
def SYMBOL_CHARSET : List Char :=
  [33, 34, 35, 36, 37, 38, 39, 40, 41, 42, 43, 44, 45, 46, 47,
   58, 59, 60, 61, 62, 63, 64, 91, 93, 123, 125, 94, 95, 96, 124, 126].map Char.ofNat

/-- index.ts `PasswordOptionType`: the tagged union
`boolean | number | { min: number }`. -/
inductive PasswordOptionType where
  /-- Boolean form: include or exclude the category. -/
  | asBool (b : Bool)
  /-- Number form: include exactly `n` characters of the category. -/
  | asNumber (n : ℕ)
  /-- Object form `{ min: n }`: include at least `n` characters. -/
  | asMin (min : ℕ)
  deriving DecidableEq

/-- index.ts `PasswordOptionsType`: one option per category. -/
structure PasswordOptionsType where
  digits : PasswordOptionType
  symbols : PasswordOptionType
  lowercase : PasswordOptionType
  uppercase : PasswordOptionType
  deriving DecidableEq

namespace Index

/-- index.ts `getInitialLengthForOption`: resolve an option to its
`(guaranteed length, eligible for more)` pair. -/
def getInitialLengthForOption : PasswordOptionType → ℕ × Bool
  | .asBool b => (0, b)
  | .asNumber n => (n, false)
  | .asMin m => (m, true)

/-- index.ts `validatePasswordOption`: in the `ℕ` embedding the negativity
checks of the source never fire, and non-number, non-boolean, non-object
values are outside the typed universe; the structure is kept verbatim. -/
def validatePasswordOption : PasswordOptionType → Except Err Unit
  | .asBool _ => .ok ()
  | .asNumber n => if n < 0 then .error .invalidOptionValue else .ok ()
  | .asMin m => if m < 0 then .error .invalidOptionValue else .ok ()

/-- Sum of the four guaranteed (exact or minimum) category lengths, in the
order the source adds them. -/
def guaranteedSum (options : PasswordOptionsType) : ℕ :=
  (getInitialLengthForOption options.digits).1 +
  (getInitialLengthForOption options.symbols).1 +
  (getInitialLengthForOption options.lowercase).1 +
  (getInitialLengthForOption options.uppercase).1

/-- index.ts `allExact`: no category is eligible for fill characters. -/
def allExact (options : PasswordOptionsType) : Bool :=
  !(getInitialLengthForOption options.digits).2 &&
  !(getInitialLengthForOption options.symbols).2 &&
  !(getInitialLengthForOption options.lowercase).2 &&
  !(getInitialLengthForOption options.uppercase).2

/-- index.ts `validatePasswordOptions(length, options)`. -/
def validatePasswordOptions (length : ℕ) (options : PasswordOptionsType) :
    Except Err Unit :=
  if length < 1 then .error .invalidPasswordLength
  else match validatePasswordOption options.lowercase with
  | .error e => .error e
  | .ok _ =>
    match validatePasswordOption options.uppercase with
    | .error e => .error e
    | .ok _ =>
      match validatePasswordOption options.digits with
      | .error e => .error e
      | .ok _ =>
        match validatePasswordOption options.symbols with
        | .error e => .error e
        | .ok _ =>
          if length < guaranteedSum options then .error .requestedExceedsLength
          else if allExact options ∧ guaranteedSum options ≠ length then
            .error .requestedLessThanLength
          else .ok ()

/-- index.ts `generateCharacters(length, charset)`: the `reduce` appends
`charset[i]` for each sampled index `i`.  Sampling uses the random.ts
`getRandomValues` as cited by the claims.  The `length < 0` check of the
source is outside the `ℕ` domain. -/
def generateCharacters (length : ℕ) (charset : List Char) (s : ℕ → ℕ)
    (fuel k : ℕ) : Except Err (Option (List Char × ℕ)) :=
  if charset.length < 2 then .error .invalidCharsetArg
  else
    match Random.getRandomValues length charset.length s fuel k with
    | .error e => .error e
    | .ok none => .ok none
    | .ok (some (vals, k2)) =>
      .ok (some (vals.foldl (fun characters i => characters ++ [charset.getD i ' ']) [], k2))

/-- index.ts `randomizeCharacters(characters)` (the version without the
short-input early return), drawing its swap indices from the crypto.ts
`getRandomValues` as cited by the claims. -/
def randomizeCharacters (characters : List Char) (s : ℕ → ℕ) (fuel k : ℕ) :
    Except Err (Option (List Char × ℕ)) :=
  match Crypto.getRandomValues characters.length characters.length s fuel k with
  | .error e => .error e
  | .ok none => .ok none
  | .ok (some (swapIndices, k2)) => .ok (some (applySwaps characters swapIndices 0, k2))

end Index

/-- Sequencing helper for the `Except Err (Option (α × ℕ))` results: propagate
a thrown error, propagate fuel exhaustion, and otherwise continue with the
value and the advanced cursor. -/
def randBind {α β : Type} (x : Except Err (Option (α × ℕ)))
    (f : α → ℕ → Except Err (Option (β × ℕ))) : Except Err (Option (β × ℕ)) :=
  match x with
  | .error e => .error e
  | .ok none => .ok none
  | .ok (some (a, k)) => f a k

namespace Index

/-- index.ts `createPassword(passwordLength, options)`: validate, generate the
guaranteed characters of the four categories in source order, generate the
fill characters from the concatenated eligible charsets, and shuffle. -/
def createPassword (passwordLength : ℕ) (options : PasswordOptionsType)
    (s : ℕ → ℕ) (fuel k : ℕ) : Except Err (Option (List Char × ℕ)) :=
  match validatePasswordOptions passwordLength options with
  | .error e => .error e
  | .ok _ =>
    randBind (generateCharacters (getInitialLengthForOption options.digits).1
        DIGIT_CHARSET s fuel k) fun d k1 =>
    randBind (generateCharacters (getInitialLengthForOption options.symbols).1
        SYMBOL_CHARSET s fuel k1) fun sy k2 =>
    randBind (generateCharacters (getInitialLengthForOption options.lowercase).1
        LOWERCASE_CHARSET s fuel k2) fun lo k3 =>
    randBind (generateCharacters (getInitialLengthForOption options.uppercase).1
        UPPERCASE_CHARSET s fuel k3) fun up k4 =>
    let result := d ++ sy ++ lo ++ up
    let remainingCharset :=
      (if (getInitialLengthForOption options.digits).2 then DIGIT_CHARSET else []) ++
      (if (getInitialLengthForOption options.symbols).2 then SYMBOL_CHARSET else []) ++
      (if (getInitialLengthForOption options.lowercase).2 then LOWERCASE_CHARSET else []) ++
      (if (getInitialLengthForOption options.uppercase).2 then UPPERCASE_CHARSET else [])
    randBind (generateCharacters (passwordLength - result.length)
        remainingCharset s fuel k4) fun fill k5 =>
    randomizeCharacters (result ++ fill) s fuel k5

/-- index.ts `generatePassword(length, options)`: the JavaScript wrapper only
fills absent option fields with the default `true`; on a full options record
it is `createPassword`. -/
def generatePassword (length : ℕ) (options : PasswordOptionsType)
    (s : ℕ → ℕ) (fuel k : ℕ) : Except Err (Option (List Char × ℕ)) :=
  createPassword length options s fuel k

end Index

/-- Modelled from the spec (section 4.1): the rejection-sampling algorithm in
the words of the specification, for comparison with the source sampler.  With
`domain` 65536 and two-byte big-endian candidates exactly when
`rangeSize > 256` (otherwise 256 and one byte), and
`cutoff = rangeSize * floor(domain / rangeSize)`, repeatedly draw a candidate
`c`; if `c < cutoff` return `start + (c mod rangeSize)`, otherwise discard and
redraw. -/
def specSampleUniform (start rangeSize : ℕ) (s : ℕ → ℕ) :
    ℕ → ℕ → Option (ℕ × ℕ)
  | 0, _ => none
  | fuel + 1, k =>
    let domain := if 256 < rangeSize then 65536 else 256
    let cutoff := rangeSize * (domain / rangeSize)
    let c := if 256 < rangeSize then s k * 256 + s (k + 1) else s k
    let k2 := if 256 < rangeSize then k + 2 else k + 1
    if c < cutoff then some (start + c % rangeSize, k2)
    else specSampleUniform start rangeSize s fuel k2

/-- Value of the `i`-th candidate the rejection loop of
`getRandomNumberLessThan number` would examine when started at cursor `k`:
two-byte candidates at stride two when `number > 256`, one byte otherwise. -/
def candidateAt (number : ℕ) (s : ℕ → ℕ) (k i : ℕ) : ℕ :=
  if 256 < number then s (k + 2 * i) * 256 + s (k + 2 * i + 1) else s (k + i)

/-! Helper lemmas about the random.ts sampler. -/

namespace Random

theorem lessThanLoop_lt (number m : ℕ) (tb : Bool) (s : ℕ → ℕ) (hn : 0 < number) :
    ∀ fuel k v k2, lessThanLoop number m tb s fuel k = some (v, k2) → v < number := by
  intro fuel
  induction fuel with
  | zero => intro k v k2 h; simp [lessThanLoop] at h
  | succ fuel ih =>
    intro k v k2 h
    simp only [lessThanLoop] at h
    split at h <;> split at h <;>
      first
        | (cases h; exact Nat.mod_lt _ hn)
        | (exact ih _ _ _ h)

theorem getRandomNumberLessThan_eq_ok (number : ℕ) (s : ℕ → ℕ) (fuel k : ℕ)
    (h2 : 2 ≤ number) (hle : number ≤ 65536) :
    getRandomNumberLessThan number s fuel k =
      .ok (lessThanLoop number (randomNumberMaxFor number)
        (decide (256 < number)) s fuel k) := by
  simp only [getRandomNumberLessThan, MAXIMUM_TWO_BYTE_VALUE]
  rw [if_neg (by omega)]

theorem rangeLoop_spec (start number : ℕ) (s : ℕ → ℕ) (fuel : ℕ)
    (h2 : 2 ≤ number) (hle : number ≤ 65536) :
    ∀ count k,
      (∀ e, rangeLoop start number s fuel count k ≠ .error e) ∧
      (∀ vs k2, rangeLoop start number s fuel count k = .ok (some (vs, k2)) →
        vs.length = count ∧ ∀ v ∈ vs, start ≤ v ∧ v < start + number) := by
  intro count
  induction count with
  | zero =>
    intro k
    refine ⟨fun e h => by simp [rangeLoop] at h, fun vs k2 h => ?_⟩
    simp only [rangeLoop, Except.ok.injEq, Option.some.injEq, Prod.mk.injEq] at h
    simp [← h.1]
  | succ i ih =>
    intro k
    have hlt := getRandomNumberLessThan_eq_ok number s fuel k h2 hle
    rcases ho : lessThanLoop number (randomNumberMaxFor number)
        (decide (256 < number)) s fuel k with _ | ⟨v, kv⟩
    · have hred : rangeLoop start number s fuel (i + 1) k = .ok none := by
        simp only [rangeLoop, hlt, ho]
      refine ⟨fun e h => by rw [hred] at h; simp at h,
        fun vs k2 h => by rw [hred] at h; simp at h⟩
    · rcases hr : rangeLoop start number s fuel i kv with e2 | (_ | ⟨vs2, k3⟩)
      · exact absurd hr ((ih kv).1 e2)
      · have hred : rangeLoop start number s fuel (i + 1) k = .ok none := by
          simp only [rangeLoop, hlt, ho, hr]
        refine ⟨fun e h => by rw [hred] at h; simp at h,
          fun vs k2 h => by rw [hred] at h; simp at h⟩
      · have hred : rangeLoop start number s fuel (i + 1) k =
            .ok (some ((start + v) :: vs2, k3)) := by
          simp only [rangeLoop, hlt, ho, hr]
        refine ⟨fun e h => by rw [hred] at h; simp at h, fun vs k2 h => ?_⟩
        rw [hred] at h
        obtain ⟨hvs, hk⟩ : (start + v) :: vs2 = vs ∧ k3 = k2 := by
          simpa using h
        have hrec := (ih kv).2 vs2 k3 hr
        have hv : v < number :=
          lessThanLoop_lt number (randomNumberMaxFor number)
            (decide (256 < number)) s (by omega) fuel k v kv ho
        subst hvs
        refine ⟨by simp [hrec.1], ?_⟩
        intro w hw
        rcases List.mem_cons.mp hw with hw | hw
        · omega
        · exact hrec.2 w hw

theorem getRandomNumbersInRange_spec (count start endv : ℕ) (s : ℕ → ℕ)
    (fuel k : ℕ) (hc : 1 ≤ count) (he : endv ≤ 65536) (hr : 2 ≤ endv - start) :
    (∀ e, getRandomNumbersInRange count start endv s fuel k ≠ .error e) ∧
    (∀ vs k2, getRandomNumbersInRange count start endv s fuel k = .ok (some (vs, k2)) →
      vs.length = count ∧ ∀ v ∈ vs, start ≤ v ∧ v < endv) := by
  have hred : getRandomNumbersInRange count start endv s fuel k =
      rangeLoop start (endv - start) s fuel count k := by
    simp only [getRandomNumbersInRange, MAXIMUM_TWO_BYTE_VALUE]
    rw [if_neg (by omega), if_neg (by omega), if_neg (by omega)]
  rw [hred]
  have hspec := rangeLoop_spec start (endv - start) s fuel (by omega) (by omega) count k
  refine ⟨hspec.1, fun vs k2 h => ?_⟩
  obtain ⟨hlen, hbound⟩ := hspec.2 vs k2 h
  exact ⟨hlen, fun v hv => by have := hbound v hv; omega⟩

end Random

/-- C2: for every count at least 1, start, and end at most 65536 with
end minus start at least 2, and for every byte stream,
`getRandomNumbersInRange(count, start, end)` never throws, and whenever it
completes it returns a list of exactly `count` integers, each value `v`
satisfying `start ≤ v < end`. -/
theorem c2_getRandomNumbersInRange_inRange (count start endv : ℕ) (s : ℕ → ℕ)
    (fuel k : ℕ) (hc : 1 ≤ count) (he : endv ≤ 65536) (hr : 2 ≤ endv - start) :
    (∀ e, Random.getRandomNumbersInRange count start endv s fuel k ≠ .error e) ∧
    (∀ vs k2,
      Random.getRandomNumbersInRange count start endv s fuel k = .ok (some (vs, k2)) →
      vs.length = count ∧ ∀ v ∈ vs, start ≤ v ∧ v < endv) :=
  Random.getRandomNumbersInRange_spec count start endv s fuel k hc he hr

/-- Witness for C2 at a concrete input: one draw over the range 0 to 10 with
the all-zero stream yields the singleton list containing 0. -/
theorem c2_witness :
    (1 : ℕ) ≤ 1 ∧ (2 : ℕ) ≤ 10 - 0 ∧
    ([0].length = 1 ∧ ∀ v ∈ [(0 : ℕ)], 0 ≤ v ∧ v < 10) :=
  ⟨by norm_num, by norm_num,
    (c2_getRandomNumbersInRange_inRange 1 0 10 (fun _ => 0) 1 0 (by norm_num)
      (by norm_num) (by norm_num)).2 [0] 1 (by rfl)⟩

/-- Alignment of the spec-modelled rejection sampler with the source loop,
stated over generalized loop parameters so that the induction goes through:
the domain, the candidate width, the cutoff, the acceptance test and the
returned value coincide step by step. -/
theorem specSampleUniform_eq_loop_aux (start number : ℕ) (s : ℕ → ℕ)
    (tb : Bool) (m : ℕ) (htb : tb = decide (256 < number))
    (hm : m = number * ((if 256 < number then 65536 else 256) / number)) :
    ∀ fuel k, specSampleUniform start number s fuel k =
      (Random.lessThanLoop number m tb s fuel k).map
        (fun p => (start + p.1, p.2)) := by
  subst htb
  subst hm
  intro fuel
  induction fuel with
  | zero => intro k; simp [specSampleUniform, Random.lessThanLoop]
  | succ fuel ih =>
    intro k
    by_cases h256 : 256 < number
    · have hdec : decide (256 < number) = true := by simp [h256]
      simp only [specSampleUniform, Random.lessThanLoop, hdec, if_pos h256,
        if_true, Random.getTwoByteRandomInteger]
      split
      · simp
      · have ih2 := ih (k + 2)
        rw [hdec] at ih2
        simp only [if_pos h256] at ih2
        exact ih2
    · have hdec : decide (256 < number) = false := by simp [h256]
      simp only [specSampleUniform, Random.lessThanLoop, hdec, if_neg h256,
        Bool.false_eq_true, if_false, Random.getOneByteRandomInteger]
      split
      · simp
      · have ih2 := ih (k + 1)
        rw [hdec] at ih2
        simp only [if_neg h256] at ih2
        exact ih2

/-- Alignment of the spec-modelled rejection sampler with the source loop at
the parameters `getRandomNumberLessThan` actually uses. -/
theorem specSampleUniform_eq_loop (start number : ℕ) (s : ℕ → ℕ) :
    ∀ fuel k, specSampleUniform start number s fuel k =
      (Random.lessThanLoop number (Random.randomNumberMaxFor number)
        (decide (256 < number)) s fuel k).map (fun p => (start + p.1, p.2)) :=
  specSampleUniform_eq_loop_aux start number s _ _ rfl
    (by simp [Random.randomNumberMaxFor, Random.maxValueFor,
      Random.MAXIMUM_TWO_BYTE_VALUE, Random.MAXIMUM_ONE_BYTE_VALUE])

/-- C3: a single draw of the range sampler is exactly the rejection-sampling
algorithm of the specification: with rangeSize = end - start it uses domain
65536 and two-byte big-endian candidates precisely when rangeSize > 256
(otherwise domain 256 and one byte), cutoff
rangeSize * floor(domain / rangeSize), accepted candidates are returned as
start + (c mod rangeSize), and rejected candidates are redrawn. -/
theorem c3_sampler_follows_spec (start endv : ℕ) (s : ℕ → ℕ) (fuel k : ℕ)
    (hr : 2 ≤ endv - start) (he : endv ≤ 65536) :
    Random.getRandomNumbersInRange 1 start endv s fuel k =
      .ok ((specSampleUniform start (endv - start) s fuel k).map
        (fun p => ([p.1], p.2))) := by
  have hred : Random.getRandomNumbersInRange 1 start endv s fuel k =
      Random.rangeLoop start (endv - start) s fuel 1 k := by
    simp only [Random.getRandomNumbersInRange, Random.MAXIMUM_TWO_BYTE_VALUE]
    rw [if_neg (by omega), if_neg (by omega), if_neg (by omega)]
  rw [hred, specSampleUniform_eq_loop start (endv - start) s fuel k]
  have hlt := Random.getRandomNumberLessThan_eq_ok (endv - start) s fuel k
    (by omega) (by omega)
  rcases ho : Random.lessThanLoop (endv - start)
      (Random.randomNumberMaxFor (endv - start))
      (decide (256 < endv - start)) s fuel k with _ | ⟨v, kv⟩
  · simp [Random.rangeLoop, hlt, ho]
  · simp [Random.rangeLoop, hlt, ho]

/-- Witness for C3 at a concrete input: sampling once from the range 0 to 10
with the all-zero stream agrees with the spec-modelled sampler. -/
theorem c3_witness :
    (2 : ℕ) ≤ 10 - 0 ∧
    Random.getRandomNumbersInRange 1 0 10 (fun _ => 0) 1 0 =
      .ok ((SPU.specSampleUniform 0 (10 - 0) (fun _ => 0) 1 0).map
        (fun p => ([p.1], p.2))) :=
  ⟨by norm_num, c3_sampler_follows_spec 0 10 (fun _ => 0) 1 0 (by norm_num) (by norm_num)⟩

/-- Shifting the loop start by one candidate width shifts the candidate
index by one. -/
theorem candidateAt_shift (number : ℕ) (s : ℕ → ℕ) (k i : ℕ) :
    candidateAt number s k (i + 1) =
      candidateAt number s (k + (if 256 < number then 2 else 1)) i := by
  by_cases h256 : 256 < number
  · simp only [candidateAt, if_pos h256]
    have h1 : k + 2 * (i + 1) = k + 2 + 2 * i := by omega
    rw [h1]
  · simp only [candidateAt, if_neg h256]
    have h1 : k + (i + 1) = k + 1 + i := by omega
    rw [h1]

/-- One unfolding step of the rejection loop with two-byte candidates. -/
theorem lessThanLoop_step_true (number m : ℕ) (s : ℕ → ℕ) (fuel k : ℕ) :
    Random.lessThanLoop number m true s (fuel + 1) k =
      if s k * 256 + s (k + 1) < m then some ((s k * 256 + s (k + 1)) % number, k + 2)
      else Random.lessThanLoop number m true s fuel (k + 2) := rfl

/-- One unfolding step of the rejection loop with one-byte candidates. -/
theorem lessThanLoop_step_false (number m : ℕ) (s : ℕ → ℕ) (fuel k : ℕ) :
    Random.lessThanLoop number m false s (fuel + 1) k =
      if s k < m then some (s k % number, k + 1)
      else Random.lessThanLoop number m false s fuel (k + 1) := rfl

/-- A candidate below the cutoff at index `i` lets the rejection loop finish
within `i + 1` iterations. -/
theorem lessThanLoop_term (number m : ℕ) (s : ℕ → ℕ) :
    ∀ i k, candidateAt number s k i < m →
      ∃ r k2, Random.lessThanLoop number m (decide (256 < number)) s (i + 1) k =
        some (r, k2) := by
  intro i
  induction i with
  | zero =>
    intro k h
    by_cases h256 : 256 < number
    · have hdec : decide (256 < number) = true := by simp [h256]
      simp only [candidateAt, if_pos h256, Nat.mul_zero, Nat.add_zero] at h
      rw [hdec, lessThanLoop_step_true, if_pos h]
      exact ⟨_, _, rfl⟩
    · have hdec : decide (256 < number) = false := by simp [h256]
      simp only [candidateAt, if_neg h256, Nat.add_zero] at h
      rw [hdec, lessThanLoop_step_false, if_pos h]
      exact ⟨_, _, rfl⟩
  | succ i ih =>
    intro k h
    by_cases h256 : 256 < number
    · have hdec : decide (256 < number) = true := by simp [h256]
      rw [hdec, lessThanLoop_step_true]
      by_cases hacc : s k * 256 + s (k + 1) < m
      · rw [if_pos hacc]
        exact ⟨_, _, rfl⟩
      · rw [if_neg hacc]
        have hshift := candidateAt_shift number s k i
        rw [if_pos h256] at hshift
        rw [hshift] at h
        obtain ⟨r, k2, hr⟩ := ih (k + 2) h
        rw [hdec] at hr
        exact ⟨r, k2, hr⟩
    · have hdec : decide (256 < number) = false := by simp [h256]
      rw [hdec, lessThanLoop_step_false]
      by_cases hacc : s k < m
      · rw [if_pos hacc]
        exact ⟨_, _, rfl⟩
      · rw [if_neg hacc]
        have hshift := candidateAt_shift number s k i
        rw [if_neg h256] at hshift
        rw [hshift] at h
        obtain ⟨r, k2, hr⟩ := ih (k + 1) h
        rw [hdec] at hr
        exact ⟨r, k2, hr⟩

/-- C9: for every valid range size (between 2 and 65536, with the domain 256
or 65536 chosen by the sampler), the acceptance cutoff
`randomNumberMax = rangeSize * floor(domain / rangeSize)` is at least half of
the domain and strictly positive, and the rejection loop of the range sampler
returns a value on every byte stream that offers at least one candidate below
the cutoff. -/
theorem c9_cutoff_and_termination (number : ℕ) (s : ℕ → ℕ) (k : ℕ)
    (h2 : 2 ≤ number) (hle : number ≤ 65536) :
    (Random.maxValueFor number / 2 ≤ Random.randomNumberMaxFor number ∧
      0 < Random.randomNumberMaxFor number) ∧
    ((∃ i, candidateAt number s k i < Random.randomNumberMaxFor number) →
      ∃ fuel r k2,
        Random.getRandomNumberLessThan number s fuel k = .ok (some (r, k2))) := by
  have hnle : number ≤ Random.maxValueFor number := by
    simp only [Random.maxValueFor, Random.MAXIMUM_TWO_BYTE_VALUE,
      Random.MAXIMUM_ONE_BYTE_VALUE]
    split <;> omega
  constructor
  · have hdm := Nat.div_add_mod (Random.maxValueFor number) number
    have hmodlt : Random.maxValueFor number % number < number :=
      Nat.mod_lt _ (by omega)
    have hdm2 := Nat.div_add_mod (Random.maxValueFor number) 2
    have hq1 : 1 ≤ Random.maxValueFor number / number :=
      (Nat.one_le_div_iff (by omega)).mpr hnle
    rw [Random.randomNumberMaxFor]
    constructor
    · by_cases hhalf : number * 2 ≤ Random.maxValueFor number
      · have hn2 : number ≤ Random.maxValueFor number / 2 :=
          (Nat.le_div_iff_mul_le (by omega)).mpr hhalf
        generalize number * (Random.maxValueFor number / number) = A at hdm ⊢
        omega
      · have hdiv2 : Random.maxValueFor number / number < 2 :=
          (Nat.div_lt_iff_lt_mul (by omega)).mpr (by omega)
        have hq : Random.maxValueFor number / number = 1 := by omega
        rw [hq]
        omega
    · have := Nat.mul_le_mul_left number hq1
      omega
  · rintro ⟨i, hi⟩
    obtain ⟨r, k2, hr⟩ := lessThanLoop_term number (Random.randomNumberMaxFor number) s i k hi
    refine ⟨i + 1, r, k2, ?_⟩
    rw [Random.getRandomNumberLessThan_eq_ok number s (i + 1) k h2 hle, hr]

/-- Witness for C9 at a concrete input: for range size 10 and the all-zero
stream, the candidate at index 0 is below the cutoff and the sampler
terminates. -/
theorem c9_witness :
    (2 : ℕ) ≤ 10 ∧
    (∃ fuel r k2,
      Random.getRandomNumberLessThan 10 (fun _ => 0) fuel 0 = .ok (some (r, k2))) :=
  ⟨by norm_num,
    (c9_cutoff_and_termination 10 (fun _ => 0) 0 (by norm_num) (by norm_num)).2
      ⟨0, by simp [candidateAt, Random.randomNumberMaxFor, Random.maxValueFor,
        Random.MAXIMUM_ONE_BYTE_VALUE]⟩⟩

/-! Permutation properties of the swap loop. -/

theorem cons_set_perm (a : Char) :
    ∀ (t : List Char) (m : ℕ), m < t.length →
      List.Perm (t.getD m ' ' :: t.set m a) (a :: t) := by
  intro t
  induction t with
  | nil => intro m h; simp at h
  | cons b t ih =>
    intro m h
    cases m with
    | zero => simpa using List.Perm.swap a b t
    | succ m =>
      simp only [List.getD_cons_succ, List.set_cons_succ]
      exact (List.Perm.swap b (t.getD m ' ') (t.set m a)).trans
        (((ih m (by simpa using h)).cons b).trans (List.Perm.swap a b t))

theorem swapChars_perm (l : List Char) :
    ∀ i j, i < l.length → j < l.length → List.Perm (swapChars l i j) l := by
  induction l with
  | nil => intro i j hi _; simp at hi
  | cons b t ih =>
    intro i j hi hj
    cases i with
    | zero =>
      cases j with
      | zero =>
        simp only [swapChars, List.getD_cons_zero, List.set_cons_zero]
        exact List.Perm.refl _
      | succ j =>
        simp only [swapChars, List.getD_cons_succ, List.getD_cons_zero,
          List.set_cons_zero, List.set_cons_succ]
        exact cons_set_perm b t j (by simpa using hj)
    | succ i =>
      cases j with
      | zero =>
        simp only [swapChars, List.getD_cons_zero, List.getD_cons_succ,
          List.set_cons_succ, List.set_cons_zero]
        exact cons_set_perm b t i (by simpa using hi)
      | succ j =>
        simp only [swapChars, List.getD_cons_succ, List.set_cons_succ]
        exact (ih i j (by simpa using hi) (by simpa using hj)).cons b

theorem applySwaps_perm :
    ∀ (idx : List ℕ) (l : List Char) (i : ℕ),
      (∀ j ∈ idx, j < l.length) → i + idx.length ≤ l.length →
      List.Perm (applySwaps l idx i) l := by
  intro idx
  induction idx with
  | nil => intro l i _ _; simp [applySwaps]
  | cons j rest ih =>
    intro l i hj hlen
    simp only [applySwaps]
    have hlen0 : i < l.length := by simp only [List.length_cons] at hlen; omega
    have hjl : j < l.length := hj j (List.mem_cons_self j rest)
    have hswap : List.Perm (swapChars l i j) l := swapChars_perm l i j hlen0 hjl
    have hlen2 : (swapChars l i j).length = l.length := by simp [swapChars]
    have hrec : List.Perm (applySwaps (swapChars l i j) rest (i + 1)) (swapChars l i j) := by
      refine ih (swapChars l i j) (i + 1) (fun x hx => ?_) ?_
      · rw [hlen2]; exact hj x (List.mem_cons_of_mem j hx)
      · rw [hlen2]; simp only [List.length_cons] at hlen; omega
    exact hrec.trans hswap

/-- C4 counterexample: the claim quantifies over every string, but on a
65537-character input the random.ts `randomizeCharacters` throws (the range
sampler rejects ends above 65536) instead of returning a permutation. -/
theorem c4_counterexample_long_input :
    Random.randomizeCharacters (List.replicate 65537 'a') (fun _ => 0) 1 0 =
      .error .invalidRangeEnd := by
  have hlen : (List.replicate 65537 'a').length = 65537 := List.length_replicate _ _
  have step1 : Random.randomizeCharacters (List.replicate 65537 'a') (fun _ => 0) 1 0 =
      match Random.getRandomNumbersInRange 65537 0 65537 (fun _ => 0) 1 0 with
      | .error e => .error e
      | .ok none => .ok none
      | .ok (some (swapIndices, k2)) =>
          .ok (some (applySwaps (List.replicate 65537 'a') swapIndices 0, k2)) := by
    rw [Random.randomizeCharacters.eq_def, hlen]
    norm_num
  have step2 : Random.getRandomNumbersInRange 65537 0 65537 (fun _ => 0) 1 0 =
      .error .invalidRangeEnd := by
    rw [Random.getRandomNumbersInRange.eq_def]
    norm_num [Random.MAXIMUM_TWO_BYTE_VALUE]
  rw [step1, step2]

/-- C4 (amended to inputs of length at most 65536): for every such string and
every byte stream, the random.ts `randomizeCharacters` never throws, and
whenever it completes its output is a permutation of the input - the same
multiset of characters, each occurring exactly as often as in the input, and
in particular the same length. -/
theorem c4_randomizeCharacters_perm (cs : List Char) (s : ℕ → ℕ) (fuel k : ℕ)
    (hlen : cs.length ≤ 65536) :
    (∀ e, Random.randomizeCharacters cs s fuel k ≠ .error e) ∧
    (∀ out k2, Random.randomizeCharacters cs s fuel k = .ok (some (out, k2)) →
      List.Perm out cs) := by
  by_cases hsm : cs.length < 2
  · have hred : Random.randomizeCharacters cs s fuel k = .ok (some (cs, k)) := by
      simp only [Random.randomizeCharacters, if_pos hsm]
    refine ⟨fun e h => by rw [hred] at h; simp at h, fun out k2 h => ?_⟩
    rw [hred] at h
    obtain ⟨hout, _⟩ : cs = out ∧ k = k2 := by simpa using h
    subst hout
    exact List.Perm.refl cs
  · have hspec := Random.getRandomNumbersInRange_spec cs.length 0 cs.length s fuel k
      (by omega) (by omega) (by omega)
    rcases hg : Random.getRandomNumbersInRange cs.length 0 cs.length s fuel k
      with e | (_ | ⟨idx, k2⟩)
    · exact absurd hg (hspec.1 e)
    · have hred : Random.randomizeCharacters cs s fuel k = .ok none := by
        simp only [Random.randomizeCharacters, if_neg hsm, hg]
      refine ⟨fun e h => by rw [hred] at h; simp at h,
        fun out k2 h => by rw [hred] at h; simp at h⟩
    · have hred : Random.randomizeCharacters cs s fuel k =
          .ok (some (applySwaps cs idx 0, k2)) := by
        simp only [Random.randomizeCharacters, if_neg hsm, hg]
      refine ⟨fun e h => by rw [hred] at h; simp at h, fun out k3 h => ?_⟩
      rw [hred] at h
      obtain ⟨hout, _⟩ : applySwaps cs idx 0 = out ∧ k2 = k3 := by simpa using h
      obtain ⟨hidxlen, hidx⟩ := hspec.2 idx k2 hg
      subst hout
      exact applySwaps_perm idx cs 0
        (fun j hj => (hidx j hj).2) (by omega)

/-- Witness for C4 at a concrete input: randomizing the two-character string
ab with the all-zero stream yields ba, a permutation of the input. -/
theorem c4_witness :
    (['a', 'b'] : List Char).length ≤ 65536 ∧
    List.Perm (['b', 'a'] : List Char) ['a', 'b'] :=
  ⟨by norm_num,
    (c4_randomizeCharacters_perm ['a', 'b'] (fun _ => 0) 1 0 (by norm_num)).2
      ['b', 'a'] 2 (by rfl)⟩

/-! Error analysis of the crypto.ts layer. -/

namespace Crypto

theorem getRandomValueInRange_err (start untilv : ℕ) (s : ℕ → ℕ) (fuel k : ℕ) (e : Err) :
    getRandomValueInRange start untilv s fuel k = .error e →
      e = .invalidByteRange ∨ e = .invalidByteMax := by
  intro h
  simp only [getRandomValueInRange] at h
  split at h
  · exact Or.inl (by simpa using h.symm)
  · split at h
    · exact Or.inr (by simpa using h.symm)
    · simp at h

theorem bytesLoop_err (rangeMax : ℕ) (s : ℕ → ℕ) (fuel : ℕ) :
    ∀ count k e, bytesLoop rangeMax s fuel count k = .error e →
      e = .invalidByteRange ∨ e = .invalidByteMax := by
  intro count
  induction count with
  | zero => intro k e h; simp [bytesLoop] at h
  | succ i ih =>
    intro k e h
    rcases hv : getRandomValueInRange 0 rangeMax s fuel k with ev | (_ | ⟨v, k2⟩)
    · have : bytesLoop rangeMax s fuel (i + 1) k = .error ev := by
        simp only [bytesLoop, hv]
      rw [this] at h
      obtain rfl : ev = e := by simpa using h
      exact getRandomValueInRange_err 0 rangeMax s fuel k _ hv
    · have : bytesLoop rangeMax s fuel (i + 1) k = .ok none := by
        simp only [bytesLoop, hv]
      rw [this] at h
      simp at h
    · rcases hr : bytesLoop rangeMax s fuel i k2 with er | (_ | ⟨vs, k3⟩)
      · have : bytesLoop rangeMax s fuel (i + 1) k = .error er := by
          simp only [bytesLoop, hv, hr]
        rw [this] at h
        obtain rfl : er = e := by simpa using h
        exact ih k2 _ hr
      · have : bytesLoop rangeMax s fuel (i + 1) k = .ok none := by
          simp only [bytesLoop, hv, hr]
        rw [this] at h
        simp at h
      · have : bytesLoop rangeMax s fuel (i + 1) k = .ok (some (v :: vs, k3)) := by
          simp only [bytesLoop, hv, hr]
        rw [this] at h
        simp at h

theorem getRandomValues_err (numBytes rangeMax : ℕ) (s : ℕ → ℕ) (fuel k : ℕ) (e : Err) :
    getRandomValues numBytes rangeMax s fuel k = .error e →
      e = .invalidByteRange ∨ e = .invalidByteMax := by
  intro h
  simp only [getRandomValues] at h
  split at h
  · simp at h
  · split at h
    · simp at h
    · exact bytesLoop_err rangeMax s fuel numBytes k e h

end Crypto

theorem index_randomizeCharacters_err (cs : List Char) (s : ℕ → ℕ) (fuel k : ℕ) (e : Err) :
    Index.randomizeCharacters cs s fuel k = .error e →
      e = .invalidByteRange ∨ e = .invalidByteMax := by
  intro h
  rcases hv : Crypto.getRandomValues cs.length cs.length s fuel k with ev | (_ | ⟨idx, k2⟩) <;>
    simp only [Index.randomizeCharacters, hv] at h
  · obtain rfl : ev = e := by simpa using h
    exact Crypto.getRandomValues_err cs.length cs.length s fuel k _ hv
  · simp at h
  · simp at h

/-- C7 counterexample: on a one-character input the index.ts
`randomizeCharacters` does not return the input unchanged - it throws the
invalid-byte-range error of the crypto.ts sampler, because it asks for a swap
index in the one-element range. -/
theorem c7_counterexample_singleton_throws :
    Index.randomizeCharacters ['x'] (fun _ => 0) 1 0 = .error .invalidByteRange := rfl

/-- C7 (amended): the random.ts `randomizeCharacters` returns every input of
length 0 or 1 unchanged, consuming no random bytes (the cursor does not
move); the index.ts `randomizeCharacters` does so for the empty string, but
on every one-character input it throws the invalid-byte-range error instead
of returning the input. -/
theorem c7_short_input_behavior (cs : List Char) (s : ℕ → ℕ) (fuel k : ℕ)
    (h : cs.length < 2) :
    Random.randomizeCharacters cs s fuel k = .ok (some (cs, k)) ∧
    (∀ (s2 : ℕ → ℕ) (fuel2 k2 : ℕ),
      Index.randomizeCharacters ([] : List Char) s2 fuel2 k2 = .ok (some ([], k2))) ∧
    (∀ (c : Char) (s2 : ℕ → ℕ) (fuel2 k2 : ℕ),
      Index.randomizeCharacters [c] s2 fuel2 k2 = .error .invalidByteRange) := by
  refine ⟨?_, fun s2 fuel2 k2 => rfl, fun c s2 fuel2 k2 => rfl⟩
  simp only [Random.randomizeCharacters, if_pos h]

/-- Witness for C7 at a concrete input: the random.ts version leaves the
one-character string x unchanged without moving the cursor. -/
theorem c7_witness :
    (['x'] : List Char).length < 2 ∧
    Random.randomizeCharacters ['x'] (fun _ => 0) 1 0 = .ok (some (['x'], 0)) :=
  ⟨by norm_num,
    (c7_short_input_behavior ['x'] (fun _ => 0) 1 0 (by norm_num)).1⟩

/-! Behaviour of the random.ts `getRandomValues` and of `generateCharacters`. -/

namespace Random

theorem getRandomValues_spec (numValues rangeMax : ℕ) (s : ℕ → ℕ) (fuel k : ℕ)
    (h2 : 2 ≤ rangeMax) (h256 : rangeMax ≤ 256) :
    (∀ e, getRandomValues numValues rangeMax s fuel k ≠ .error e) ∧
    (∀ vs k2, getRandomValues numValues rangeMax s fuel k = .ok (some (vs, k2)) →
      vs.length = numValues ∧ ((∀ i, s i < 256) → ∀ v ∈ vs, v < rangeMax)) ∧
    (numValues = 0 → getRandomValues numValues rangeMax s fuel k = .ok (some ([], k))) := by
  have hn : ¬ (256 < rangeMax) := by omega
  by_cases hz : numValues = 0
  · subst hz
    have hred : getRandomValues 0 rangeMax s fuel k = .ok (some ([], k)) := by
      simp [getRandomValues, hn]
    refine ⟨fun e h => by rw [hred] at h; simp at h, fun vs k2 h => ?_, fun _ => hred⟩
    rw [hred] at h
    obtain ⟨hvs, _⟩ : [] = vs ∧ k = k2 := by simpa using h
    simp [← hvs]
  · by_cases hfull : rangeMax = 256
    · subst hfull
      have hred : getRandomValues numValues 256 s fuel k =
          .ok (some (getRandomBytes numValues s k)) := by
        simp [getRandomValues, hz]
      refine ⟨fun e h => by rw [hred] at h; simp at h, fun vs k2 h => ?_, fun h0 => absurd h0 hz⟩
      rw [hred] at h
      obtain ⟨hvs, _⟩ : (getRandomBytes numValues s k).1 = vs ∧
          (getRandomBytes numValues s k).2 = k2 := by
        simpa [Prod.ext_iff] using h
      subst hvs
      constructor
      · simp [getRandomBytes]
      · intro hbytes v hv
        simp only [getRandomBytes, List.mem_map] at hv
        obtain ⟨i, _, rfl⟩ := hv
        exact hbytes (k + i)
    · have hred : getRandomValues numValues rangeMax s fuel k =
          rangeLoop 0 rangeMax s fuel numValues k := by
        simp [getRandomValues, hn, hz, hfull]
      have hspec := rangeLoop_spec 0 rangeMax s fuel h2 (by omega) numValues k
      rw [hred]
      refine ⟨hspec.1, fun vs k2 h => ?_, fun h0 => absurd h0 hz⟩
      obtain ⟨hlen, hbound⟩ := hspec.2 vs k2 h
      exact ⟨hlen, fun _ v hv => by have := hbound v hv; omega⟩

end Random

theorem foldl_append_eq_map (charset : List Char) :
    ∀ (vals : List ℕ) (acc : List Char),
      vals.foldl (fun characters i => characters ++ [charset.getD i ' ']) acc =
        acc ++ vals.map (fun i => charset.getD i ' ') := by
  intro vals
  induction vals with
  | nil => intro acc; simp
  | cons v vs ih =>
    intro acc
    rw [List.foldl_cons, ih, List.append_assoc]
    rfl

/-- Full behaviour of `generateCharacters` on charsets of length 2 to 256:
no error is thrown, a completed run returns exactly the sampled indices
mapped through the charset, and a zero length consumes nothing. -/
theorem generateCharacters_ok (length : ℕ) (charset : List Char) (s : ℕ → ℕ)
    (fuel k : ℕ) (h2 : 2 ≤ charset.length) (h256 : charset.length ≤ 256) :
    (∀ e, Index.generateCharacters length charset s fuel k ≠ .error e) ∧
    (∀ out k2, Index.generateCharacters length charset s fuel k = .ok (some (out, k2)) →
      ∃ samples,
        Random.getRandomValues length charset.length s fuel k = .ok (some (samples, k2)) ∧
        samples.length = length ∧
        ((∀ i, s i < 256) → ∀ v ∈ samples, v < charset.length) ∧
        out = samples.map (fun v => charset.getD v ' ') ∧
        out.length = length) ∧
    (length = 0 → Index.generateCharacters length charset s fuel k = .ok (some ([], k))) := by
  have hvals := Random.getRandomValues_spec length charset.length s fuel k h2 h256
  rcases hv : Random.getRandomValues length charset.length s fuel k
    with ev | (_ | ⟨vals, k2⟩)
  · exact absurd hv (hvals.1 ev)
  · have hred : Index.generateCharacters length charset s fuel k = .ok none := by
      simp only [Index.generateCharacters, if_neg (by omega : ¬ charset.length < 2), hv]
    refine ⟨fun e h => by rw [hred] at h; simp at h,
      fun out k2 h => by rw [hred] at h; simp at h, fun h0 => ?_⟩
    have := (hvals.2.2) h0
    rw [this] at hv
    simp at hv
  · have hred : Index.generateCharacters length charset s fuel k =
        .ok (some (vals.foldl (fun characters i => characters ++ [charset.getD i ' ']) [],
          k2)) := by
      simp only [Index.generateCharacters, if_neg (by omega : ¬ charset.length < 2), hv]
    obtain ⟨hlen, hbound⟩ := (hvals.2.1) vals k2 hv
    refine ⟨fun e h => by rw [hred] at h; simp at h, fun out k3 h => ?_, fun h0 => ?_⟩
    · rw [hred] at h
      obtain ⟨hout, hk⟩ : vals.foldl (fun characters i => characters ++ [charset.getD i ' ']) [] = out ∧
          k2 = k3 := by simpa using h
      subst hk
      refine ⟨vals, rfl, hlen, hbound, ?_, ?_⟩
      · rw [← hout, foldl_append_eq_map]
        simp
      · rw [← hout, foldl_append_eq_map]
        simp [hlen]
    · have := (hvals.2.2) h0
      rw [this] at hv
      obtain ⟨hvals0, hk0⟩ : ([] : List ℕ) = vals ∧ k = k2 := by simpa using hv
      rw [hred, ← hvals0, hk0]
      simp

/-- C6 counterexample: `generateCharacters` accepts the duplicate charset aa
and returns a character instead of failing with the invalid-charset error. -/
theorem c6_counterexample_duplicates_accepted :
    Index.generateCharacters 1 ['a', 'a'] (fun _ => 0) 1 0 = .ok (some (['a'], 1)) := rfl

/-- C6 (amended): `generateCharacters` checks only that the charset has at
least two characters; it performs no duplicate check, so on every duplicate
charset of length 2 to 256 it proceeds without any error. -/
theorem c6_no_duplicate_check (length : ℕ) (charset : List Char) (s : ℕ → ℕ)
    (fuel k : ℕ) (h2 : 2 ≤ charset.length) (h256 : charset.length ≤ 256)
    (_hdup : ¬ charset.Nodup) :
    ∀ e, Index.generateCharacters length charset s fuel k ≠ .error e :=
  (generateCharacters_ok length charset s fuel k h2 h256).1

/-- Witness for C6 at a concrete input: the charset aa has a duplicate and
`generateCharacters` does not raise the invalid-charset error on it. -/
theorem c6_witness :
    ¬ (['a', 'a'] : List Char).Nodup ∧
    Index.generateCharacters 1 ['a', 'a'] (fun _ => 0) 1 0 ≠ .error .invalidCharsetArg :=
  ⟨by simp,
    (c6_no_duplicate_check 1 ['a', 'a'] (fun _ => 0) 1 0 (by norm_num) (by norm_num)
      (by simp)) .invalidCharsetArg⟩

/-- C8 counterexample: the claim quantifies over every charset with at least
two characters, but on a duplicate-free charset of 257 characters
`generateCharacters` throws the range-max error of the random.ts
`getRandomValues` instead of returning a string. -/
theorem c8_counterexample_large_charset :
    Index.generateCharacters 1 ((List.range 257).map Char.ofNat) (fun _ => 0) 1 0 =
      .error .invalidRangeMax := by
  have hlen : ((List.range 257).map Char.ofNat).length = 257 := by simp
  have hred : Index.generateCharacters 1 ((List.range 257).map Char.ofNat)
      (fun _ => 0) 1 0 =
      match Random.getRandomValues 1 257 (fun _ => 0) 1 0 with
      | .error e => .error e
      | .ok none => .ok none
      | .ok (some (vals, k2)) =>
        .ok (some (vals.foldl
          (fun characters i =>
            characters ++ [((List.range 257).map Char.ofNat).getD i ' ']) [], k2)) := by
    rw [Index.generateCharacters.eq_def, hlen]
    norm_num
  rw [hred]
  rfl

/-- C8 (amended to charsets of length 2 to 256): for every length and every
byte stream, `generateCharacters(length, charset)` never throws; whenever it
completes, its output lists exactly the characters `charset[v]` for the
successive samples `v` of `getRandomValues(length, charset.length)` in draw
order, each sample is below the charset length, and the output length equals
the requested length; for length 0 it returns the empty string with the
cursor unmoved. -/
theorem c8_generateCharacters_spec (length : ℕ) (charset : List Char) (s : ℕ → ℕ)
    (fuel k : ℕ) (h2 : 2 ≤ charset.length) (h256 : charset.length ≤ 256)
    (hbytes : ∀ i, s i < 256) :
    (∀ e, Index.generateCharacters length charset s fuel k ≠ .error e) ∧
    (∀ out k2, Index.generateCharacters length charset s fuel k = .ok (some (out, k2)) →
      ∃ samples,
        Random.getRandomValues length charset.length s fuel k = .ok (some (samples, k2)) ∧
        samples.length = length ∧
        (∀ v ∈ samples, v < charset.length) ∧
        out = samples.map (fun v => charset.getD v ' ') ∧
        out.length = length) ∧
    (length = 0 → Index.generateCharacters length charset s fuel k = .ok (some ([], k))) := by
  obtain ⟨hne, hsucc, hz⟩ := generateCharacters_ok length charset s fuel k h2 h256
  refine ⟨hne, fun out k2 h => ?_, hz⟩
  obtain ⟨samples, hs1, hs2, hs3, hs4, hs5⟩ := hsucc out k2 h
  exact ⟨samples, hs1, hs2, hs3 hbytes, hs4, hs5⟩

/-- Witness for C8 at a concrete input: on the two-character charset ab a
zero-length request returns the empty string with the cursor unmoved. -/
theorem c8_witness :
    (2 : ℕ) ≤ (['a', 'b'] : List Char).length ∧
    Index.generateCharacters 0 ['a', 'b'] (fun _ => 0) 1 0 = .ok (some ([], 0)) :=
  ⟨by norm_num,
    (c8_generateCharacters_spec 0 ['a', 'b'] (fun _ => 0) 1 0 (by norm_num) (by norm_num)
      (fun i => by norm_num)).2.2 rfl⟩

/-! Validation of password options and the password pipeline. -/

theorem validatePasswordOption_ok (o : PasswordOptionType) :
    Index.validatePasswordOption o = .ok () := by
  cases o <;> simp [Index.validatePasswordOption, Nat.not_lt_zero]

/-- The validation function in closed form: in the typed `ℕ` universe the
per-option checks always pass, leaving the length checks of the source. -/
theorem validatePasswordOptions_eq (length : ℕ) (options : PasswordOptionsType) :
    Index.validatePasswordOptions length options =
      if length < 1 then .error .invalidPasswordLength
      else if length < Index.guaranteedSum options then .error .requestedExceedsLength
      else if Index.allExact options ∧ Index.guaranteedSum options ≠ length then
        .error .requestedLessThanLength
      else .ok () := by
  simp only [Index.validatePasswordOptions, validatePasswordOption_ok]

theorem randBind_err {α β : Type} (x : Except Err (Option (α × ℕ)))
    (f : α → ℕ → Except Err (Option (β × ℕ))) (e : Err) :
    randBind x f = .error e →
      x = .error e ∨ ∃ a k, x = .ok (some (a, k)) ∧ f a k = .error e := by
  intro h
  rcases x with ex | (_ | ⟨a, k⟩)
  · left
    obtain rfl : ex = e := by simpa [randBind] using h
    rfl
  · simp [randBind] at h
  · right
    exact ⟨a, k, rfl, h⟩

theorem generateCharacters_err (length : ℕ) (charset : List Char) (s : ℕ → ℕ)
    (fuel k : ℕ) (e : Err) :
    Index.generateCharacters length charset s fuel k = .error e →
      e = .invalidCharsetArg ∨ e = .invalidRangeMax := by
  intro h
  by_cases hcs : charset.length < 2
  · simp only [Index.generateCharacters, if_pos hcs] at h
    exact Or.inl (by simpa using h.symm)
  · by_cases hbig : 256 < charset.length
    · have hred : Random.getRandomValues length charset.length s fuel k =
          .error .invalidRangeMax := by
        simp [Random.getRandomValues, hbig]
      simp only [Index.generateCharacters, if_neg hcs, hred] at h
      exact Or.inr (by simpa using h.symm)
    · exact absurd h
        ((generateCharacters_ok length charset s fuel k (by omega) (by omega)).1 e)

/-- After validation has passed, the generation pipeline of `createPassword`
can only throw charset or byte-range errors, never a length-mismatch one. -/
theorem createPassword_err_of_validate_ok (length : ℕ) (options : PasswordOptionsType)
    (s : ℕ → ℕ) (fuel k : ℕ) (e : Err)
    (hval : Index.validatePasswordOptions length options = .ok ()) :
    Index.createPassword length options s fuel k = .error e →
      e = .invalidCharsetArg ∨ e = .invalidRangeMax ∨
      e = .invalidByteRange ∨ e = .invalidByteMax := by
  intro h
  simp only [Index.createPassword, hval] at h
  rcases randBind_err _ _ _ h with h1 | ⟨d, k1, _, h1⟩
  · rcases generateCharacters_err _ _ _ _ _ _ h1 with h2 | h2 <;> tauto
  rcases randBind_err _ _ _ h1 with h2 | ⟨sy, k2, _, h2⟩
  · rcases generateCharacters_err _ _ _ _ _ _ h2 with h3 | h3 <;> tauto
  rcases randBind_err _ _ _ h2 with h3 | ⟨lo, k3, _, h3⟩
  · rcases generateCharacters_err _ _ _ _ _ _ h3 with h4 | h4 <;> tauto
  rcases randBind_err _ _ _ h3 with h4 | ⟨up, k4, _, h4⟩
  · rcases generateCharacters_err _ _ _ _ _ _ h4 with h5 | h5 <;> tauto
  rcases randBind_err _ _ _ h4 with h5 | ⟨fill, k5, _, h5⟩
  · rcases generateCharacters_err _ _ _ _ _ _ h5 with h6 | h6 <;> tauto
  rcases index_randomizeCharacters_err _ _ _ _ _ h5 with h6 | h6 <;> tauto

/-- C5: `generatePassword` raises one of the two length-mismatch errors
exactly when the sum of the four guaranteed category counts exceeds the
length, or no category is eligible for fill (every option is a boolean false
or an exact count) and the sum differs from the length; and every validation
failure is raised before any random bytes are consumed - the result is the
same error for every byte stream, every fuel and every cursor. -/
theorem c5_lengthMismatch_iff (length : ℕ) (options : PasswordOptionsType) :
    (∀ fuel (s : ℕ → ℕ) k,
      ((Index.generatePassword length options s fuel k = .error .requestedExceedsLength ∨
        Index.generatePassword length options s fuel k = .error .requestedLessThanLength) ↔
        (1 ≤ length ∧ (length < Index.guaranteedSum options ∨
          (Index.allExact options = true ∧ Index.guaranteedSum options ≠ length))))) ∧
    (∀ e, Index.validatePasswordOptions length options = .error e →
      ∀ fuel (s : ℕ → ℕ) k,
        Index.generatePassword length options s fuel k = .error e) := by
  have hveq := validatePasswordOptions_eq length options
  constructor
  · intro fuel s k
    by_cases h1 : length < 1
    · have he : Index.validatePasswordOptions length options =
          .error .invalidPasswordLength := by rw [hveq, if_pos h1]
      have hcp : Index.generatePassword length options s fuel k =
          .error .invalidPasswordLength := by
        simp only [Index.generatePassword, Index.createPassword, he]
      constructor
      · intro hor
        rcases hor with hor | hor <;> (rw [hcp] at hor; simp at hor)
      · rintro ⟨hl, _⟩
        omega
    · by_cases h2 : length < Index.guaranteedSum options
      · have he : Index.validatePasswordOptions length options =
            .error .requestedExceedsLength := by
          rw [hveq, if_neg h1, if_pos h2]
        have hcp : Index.generatePassword length options s fuel k =
            .error .requestedExceedsLength := by
          simp only [Index.generatePassword, Index.createPassword, he]
        constructor
        · intro _
          exact ⟨by omega, Or.inl h2⟩
        · intro _
          exact Or.inl hcp
      · by_cases h3 : Index.allExact options = true ∧ Index.guaranteedSum options ≠ length
        · have he : Index.validatePasswordOptions length options =
              .error .requestedLessThanLength := by
            rw [hveq, if_neg h1, if_neg h2, if_pos h3]
          have hcp : Index.generatePassword length options s fuel k =
              .error .requestedLessThanLength := by
            simp only [Index.generatePassword, Index.createPassword, he]
          constructor
          · intro _
            exact ⟨by omega, Or.inr h3⟩
          · intro _
            exact Or.inr hcp
        · have hval : Index.validatePasswordOptions length options = .ok () := by
            rw [hveq, if_neg h1, if_neg h2, if_neg h3]
          constructor
          · intro hor
            rcases hor with hor | hor <;>
              (rcases createPassword_err_of_validate_ok length options s fuel k _
                  hval hor with h | h | h | h <;> simp at h)
          · rintro ⟨hl, hor⟩
            rcases hor with hor | hor
            · exact absurd hor h2
            · exact absurd hor h3
  · intro e he fuel s k
    simp only [Index.generatePassword, Index.createPassword, he]

/-- Witness for C5 at a concrete input: requesting 8 digits in a 6-character
password fails validation with the exceeds-length error, and the password
call returns exactly that error on a concrete stream. -/
theorem c5_witness :
    Index.validatePasswordOptions 6
      ⟨.asNumber 8, .asBool false, .asBool false, .asBool false⟩ =
      .error .requestedExceedsLength ∧
    Index.generatePassword 6 ⟨.asNumber 8, .asBool false, .asBool false, .asBool false⟩
      (fun _ => 0) 1 0 = .error .requestedExceedsLength :=
  ⟨by rfl,
    (c5_lengthMismatch_iff 6 ⟨.asNumber 8, .asBool false, .asBool false, .asBool false⟩).2
      .requestedExceedsLength (by rfl) 1 (fun _ => 0) 0⟩

/-- C1: evaluation of the code at the failing input of the claim.  The
options request exactly 8 digits and exclude the other three categories, the
length is 8, so validation passes (all categories exact, sum equal to
length); the claim says an 8-character all-digit password is returned, but
`createPassword` builds an empty fill charset and `generateCharacters(0,
empty)` throws the invalid-charset error. -/
theorem c1_allExact_invalidCharset :
    Index.generatePassword 8 ⟨.asNumber 8, .asBool false, .asBool false, .asBool false⟩
      (fun _ => 0) 1 0 = .error .invalidCharsetArg := rfl

/-- C10: the four default charsets have 10, 26, 26 and 31 characters, none
contains a duplicate, and they are pairwise disjoint, so per-category
character counts of a password are well defined. -/
theorem c10_charsets_nodup_disjoint :
    DIGIT_CHARSET.length = 10 ∧ LOWERCASE_CHARSET.length = 26 ∧
    UPPERCASE_CHARSET.length = 26 ∧ SYMBOL_CHARSET.length = 31 ∧
    DIGIT_CHARSET.Nodup ∧ LOWERCASE_CHARSET.Nodup ∧
    UPPERCASE_CHARSET.Nodup ∧ SYMBOL_CHARSET.Nodup ∧
    (∀ c ∈ DIGIT_CHARSET, c ∉ LOWERCASE_CHARSET) ∧
    (∀ c ∈ DIGIT_CHARSET, c ∉ UPPERCASE_CHARSET) ∧
    (∀ c ∈ DIGIT_CHARSET, c ∉ SYMBOL_CHARSET) ∧
    (∀ c ∈ LOWERCASE_CHARSET, c ∉ UPPERCASE_CHARSET) ∧
    (∀ c ∈ LOWERCASE_CHARSET, c ∉ SYMBOL_CHARSET) ∧
    (∀ c ∈ UPPERCASE_CHARSET, c ∉ SYMBOL_CHARSET) := by decide

end SPU
